import Mathlib

/-!
Verification of the audio-alignment pipeline in `cut.py` (SermonSlicer).

Signals are modelled as lists of integer amplitude samples (librosa
yields real samples; the integer model keeps every definition
kernel-executable, and the spec's confidence threshold of 1000 is stated
for 16-bit-range integer amplitudes).  The estimator `find_audio_offset`,
the ffmpeg command construction and the orchestration in `process_video`
are embedded as pure functions; external subprocess outcomes (ffmpeg
present, ffprobe answers, transcode success) are supplied by an explicit
environment record.
-/

namespace Cut

/-- The working sample rate (`sr`), fixed to 14700 Hz in `cut.py`. -/
def sr : ℕ := 14700

/-- The analysis window: `wav_y[:sr*60]`, i.e. 60 seconds of samples. -/
def windowSamples : ℕ := sr * 60

/-- The probe truncation `wav_y = wav_y[:sr*60]` (line 34 of cut.py). -/
def truncProbe (w : List ℤ) : List ℤ := w.take windowSamples

/-- Coefficient `t` of the full linear convolution of two sample lists:
`c t = Σ_j a j * b (t - j)`. -/
def conv_coeff (a b : List ℤ) (t : ℕ) : ℤ :=
  ∑ j ∈ Finset.range (t + 1), a.getD j 0 * b.getD (t - j) 0

/-- Model of `scipy.signal.fftconvolve(a, b, mode="full")`: the full linear
convolution, of length `len a + len b - 1`; scipy returns an empty array
when either input is empty. -/
def fftconvolve (a b : List ℤ) : List ℤ :=
  if a = [] ∨ b = [] then []
  else (List.range (a.length + b.length - 1)).map (conv_coeff a b)

/-- First index of the maximum value of a list (`np.argmax` semantics:
ties resolved to the earliest index).  `np.argmax` raises on an empty
array; callers must handle `[]` separately. -/
def argmax : List ℤ → ℕ
  | [] => 0
  | [_] => 0
  | x :: y :: xs =>
    if (y :: xs).getD (argmax (y :: xs)) 0 ≤ x then 0 else argmax (y :: xs) + 1

/-- The maximum value of a list, as the value at its argmax (`np.max`
agrees with this on non-empty arrays). -/
def maxVal (l : List ℤ) : ℤ := l.getD (argmax l) 0

/-- Model of `correlation = fftconvolve(video_y, wav_y[::-1], mode="full")`
(line 38 of cut.py), with the probe already truncated to the window. -/
def correlationOf (video_y wav_y : List ℤ) : List ℤ :=
  fftconvolve video_y (truncProbe wav_y).reverse

/-- Model of `best_offset = np.argmax(correlation) - len(wav_y)` (line 39). -/
def bestOffsetOf (video_y wav_y : List ℤ) : ℤ :=
  (argmax (correlationOf video_y wav_y) : ℤ) - (truncProbe wav_y).length

/-- The confidence `np.max(correlation)` (lines 42 and 49). -/
def confidenceOf (video_y wav_y : List ℤ) : ℤ :=
  maxVal (correlationOf video_y wav_y)

/-- Outcome of `find_audio_offset`: `crashValueError` models the uncaught
`ValueError` numpy raises when `np.argmax` is applied to an empty
correlation array (there is no input validation in the code);
`errNoAlignment` models the handled `sys.exit(1)` on low confidence;
`ok` carries the returned offset in seconds. -/
inductive EstResult
  | crashValueError
  | errNoAlignment
  | ok (offsetSeconds : ℚ)
deriving DecidableEq

/-- Model of `find_audio_offset` (lines 27-51 of cut.py) on already-loaded sample
lists: correlate, take the argmax-based lag, reject confidence `< 1000`,
convert the lag to seconds and clamp at zero. -/
def find_audio_offset (video_y wav_y : List ℤ) : EstResult :=
  if correlationOf video_y wav_y = [] then .crashValueError
  else if confidenceOf video_y wav_y < 1000 then .errNoAlignment
  else .ok (max ((bestOffsetOf video_y wav_y : ℚ) / (sr : ℚ)) 0)

/-- Python's `str` applied to the optional bitrate: `str(None) = "None"`
(this is exactly what line 117 of cut.py interpolates into the command). -/
def pyStrOptNat : Option ℕ → String
  | none => "None"
  | some n => toString n

/-- The fade filter argument `f"fade=t=out:st={duration-1}:d=1"`. -/
def fade_filter (duration : ℚ) : String :=
  "fade=t=out:st=" ++ toString (duration - 1) ++ ":d=1"

/-- The final ffmpeg argument list built at lines 108-122 of cut.py. -/
def build_command (offset_seconds duration : ℚ) (bitrate : Option ℕ)
    (input_video input_audio output_video : String) : List String :=
  ["ffmpeg", "-y",
   "-ss", toString offset_seconds,
   "-i", input_video,
   "-i", input_audio,
   "-map", "0:v:0",
   "-map", "1:a:0",
   "-c:v", "libx265",
   "-c:a", "aac",
   "-b:v", pyStrOptNat bitrate,
   "-b:a", "128k",
   "-t", toString duration,
   "-vf", fade_filter duration,
   output_video]

/-- The pipeline steps of `process_video`, named after the spec's state
machine (`checkTool` is the initial `check_ffmpeg`). -/
inductive Step
  | checkTool
  | probeDuration
  | extractAudio
  | estimateOffset
  | probeBitrate
  | buildRequest
  | transcode
  | cleanup
deriving DecidableEq

/-- Terminal status of one `process_video` run.  `err…` cases are the
`sys.exit(1)` paths, `crash…` cases are uncaught exceptions
(`subprocess.CalledProcessError` from `check=True`, numpy `ValueError`);
both abort the run without reaching later lines. -/
inductive RunStatus
  | errFfmpegMissing
  | errDuration
  | crashExtract
  | crashValueError
  | errNoAlignment
  | crashTranscode
  | completed
deriving DecidableEq

/-- Observable outcome of one `process_video` run: final status, the
ordered trace of steps that were started, whether the temporary
intermediate WAV (`temp_video_audio.wav`) still exists on disk
afterwards, and the ffmpeg command that was built (if the run got that
far). -/
structure RunOutcome where
  status : RunStatus
  trace : List Step
  tempFileExists : Bool
  builtCommand : Option (List String)

/-- Results of the external collaborators during one run: whether ffmpeg
is on the PATH, what the two ffprobe queries return (`none` = failure /
unparseable), whether the extraction and transcode subprocesses succeed,
and the two decoded sample lists fed to the estimator. -/
structure Env where
  ffmpegInstalled : Bool
  durationResult : Option ℚ
  extractOk : Bool
  videoSig : List ℤ
  audioSig : List ℤ
  bitrateResult : Option ℕ
  transcodeOk : Bool

/-- Model of `process_video` (lines 88-130 of cut.py), sequenced exactly as the
source: `check_ffmpeg`, then `get_audio_duration(input_audio)`, then
`extract_audio`, then `find_audio_offset`, then `get_video_bitrate`
(which never fails fatally), then the command build, then the transcode
subprocess, then `unlink(missing_ok=True)`.  The temp file exists from
the extraction attempt onward and is only removed by the final unlink,
which is reached solely on a successful transcode (there is no
`try/finally` in the source). -/
def process_video (env : Env) (input_video input_audio output_video : String) :
    RunOutcome :=
  if env.ffmpegInstalled = false then
    ⟨.errFfmpegMissing, [.checkTool], false, none⟩
  else
    match env.durationResult with
    | none => ⟨.errDuration, [.checkTool, .probeDuration], false, none⟩
    | some duration =>
      if env.extractOk = false then
        ⟨.crashExtract, [.checkTool, .probeDuration, .extractAudio], true, none⟩
      else
        match find_audio_offset env.videoSig env.audioSig with
        | .crashValueError =>
          ⟨.crashValueError,
           [.checkTool, .probeDuration, .extractAudio, .estimateOffset], true, none⟩
        | .errNoAlignment =>
          ⟨.errNoAlignment,
           [.checkTool, .probeDuration, .extractAudio, .estimateOffset], true, none⟩
        | .ok offset_seconds =>
          let cmd := build_command offset_seconds duration env.bitrateResult
            input_video input_audio output_video
          if env.transcodeOk = false then
            ⟨.crashTranscode,
             [.checkTool, .probeDuration, .extractAudio, .estimateOffset,
              .probeBitrate, .buildRequest, .transcode], true, some cmd⟩
          else
            ⟨.completed,
             [.checkTool, .probeDuration, .extractAudio, .estimateOffset,
              .probeBitrate, .buildRequest, .transcode, .cleanup], false, some cmd⟩

/-- The full successful step sequence of `process_video`, in source order. -/
def stepOrder : List Step :=
  [.checkTool, .probeDuration, .extractAudio, .estimateOffset,
   .probeBitrate, .buildRequest, .transcode, .cleanup]

/-- Sample command-line paths used by the concrete environments. -/
def iv0 : String := "in.mp4"

/-- Sample external-audio path. -/
def ia0 : String := "in.wav"

/-- Sample output path. -/
def ov0 : String := "out.mp4"

/-- An environment in which every external call succeeds. -/
def envAllOk : Env :=
  ⟨true, some 10, true, [40], [40], some 5000000, true⟩

/-- An environment in which only the final transcode subprocess fails. -/
def envTranscodeFails : Env :=
  ⟨true, some 10, true, [40], [40], some 5000000, false⟩

/-- An environment in which the bitrate probe returns nothing. -/
def envNoBitrate : Env :=
  ⟨true, some 10, true, [40], [40], none, true⟩

/-- An environment whose signals correlate too weakly for the threshold. -/
def envLowConfidence : Env :=
  ⟨true, some 10, true, [1], [1], some 5000000, true⟩

/-- A sample list viewed as a ℤ-indexed signal: its samples on
`[0, length)`, and `0` everywhere else (the zero-padding implicit in a
full linear convolution). -/
def sig (w : List ℤ) : ℤ → ℤ := fun z =>
  if 0 ≤ z ∧ z < (w.length : ℤ) then w.getD z.toNat 0 else 0

/-- The self-correlation peak `Σ_i w i ^ 2` of a signal. -/
def selfEnergy (w : List ℤ) : ℤ :=
  ∑ i ∈ Finset.Ico (0 : ℤ) (w.length : ℤ), sig w i ^ 2

/-- The autocorrelation of a signal at integer lag `d`:
`Σ_i w i * w (i - d)` with zero-padding outside the support. -/
def autocorr (w : List ℤ) (d : ℤ) : ℤ :=
  ∑ i ∈ Finset.Ico (0 : ℤ) (w.length : ℤ), sig w i * sig w (i - d)

/-- An index window containing both the support of `sig w` and the
support of `fun i => sig w (i - d)`. -/
def corrWindow (w : List ℤ) (d : ℤ) : Finset ℤ :=
  Finset.Ico (min 0 d) (max (w.length : ℤ) ((w.length : ℤ) + d))

/-- Clamping a nonpositive lag's seconds value yields exactly 0. -/
lemma clamp_eq_zero_of_nonpos (bo : ℤ) (h : bo ≤ 0) :
    max ((bo : ℚ) / (sr : ℚ)) 0 = 0 := by
  apply max_eq_right
  apply div_nonpos_of_nonpos_of_nonneg
  · exact_mod_cast h
  · positivity

/-- Evaluating the estimator on the concrete pair `[40], [40]`. -/
lemma est40 : find_audio_offset [40] [40] = .ok 0 := by
  have h1 : bestOffsetOf [40] [40] = -1 := by decide
  unfold find_audio_offset
  rw [if_neg (by decide), if_neg (by decide), h1,
    clamp_eq_zero_of_nonpos (-1) (by decide)]

lemma getD_cons_zero (x : ℤ) (l : List ℤ) : (x :: l).getD 0 0 = x := rfl

lemma getD_cons_succ (x : ℤ) (l : List ℤ) (j : ℕ) :
    (x :: l).getD (j + 1) 0 = l.getD j 0 := rfl

lemma argmax_lt_length : ∀ (l : List ℤ), l ≠ [] → argmax l < l.length
  | [], h => absurd rfl h
  | [_], _ => by simp [argmax]
  | x :: y :: xs, _ => by
    have ih := argmax_lt_length (y :: xs) (by simp)
    by_cases hc : (y :: xs).getD (argmax (y :: xs)) 0 ≤ x
    · simp only [argmax, if_pos hc, List.length_cons]
      omega
    · simp only [argmax, if_neg hc, List.length_cons]
      simp only [List.length_cons] at ih
      omega

lemma maxVal_cons_of_le (x y : ℤ) (xs : List ℤ)
    (hc : (y :: xs).getD (argmax (y :: xs)) 0 ≤ x) :
    maxVal (x :: y :: xs) = x := by
  unfold maxVal
  simp only [argmax, if_pos hc]
  rfl

lemma maxVal_cons_of_gt (x y : ℤ) (xs : List ℤ)
    (hc : ¬(y :: xs).getD (argmax (y :: xs)) 0 ≤ x) :
    maxVal (x :: y :: xs) = maxVal (y :: xs) := by
  unfold maxVal
  simp only [argmax, if_neg hc]
  rfl

lemma getD_le_maxVal : ∀ (l : List ℤ) (i : ℕ), i < l.length → l.getD i 0 ≤ maxVal l
  | [], _, h => by simp at h
  | [x], i, h => by
    have hi : i = 0 := by simpa using h
    subst hi
    exact le_refl x
  | x :: y :: xs, i, h => by
    by_cases hc : (y :: xs).getD (argmax (y :: xs)) 0 ≤ x
    · rw [maxVal_cons_of_le x y xs hc]
      cases i with
      | zero => exact le_refl x
      | succ j =>
        rw [getD_cons_succ]
        refine le_trans (getD_le_maxVal (y :: xs) j ?_) hc
        simp only [List.length_cons] at h ⊢
        omega
    · rw [maxVal_cons_of_gt x y xs hc]
      cases i with
      | zero => exact le_of_lt (lt_of_not_ge hc)
      | succ j =>
        rw [getD_cons_succ]
        refine getD_le_maxVal (y :: xs) j ?_
        simp only [List.length_cons] at h ⊢
        omega

lemma getD_lt_maxVal_of_lt_argmax :
    ∀ (l : List ℤ) (i : ℕ), i < argmax l → l.getD i 0 < maxVal l
  | [], i, h => by simp [argmax] at h
  | [x], i, h => by simp [argmax] at h
  | x :: y :: xs, i, h => by
    by_cases hc : (y :: xs).getD (argmax (y :: xs)) 0 ≤ x
    · rw [show argmax (x :: y :: xs) = 0 by simp only [argmax, if_pos hc]] at h
      omega
    · have h' : i < argmax (y :: xs) + 1 := by
        rw [show argmax (x :: y :: xs) = argmax (y :: xs) + 1 by
          simp only [argmax, if_neg hc]] at h
        exact h
      rw [maxVal_cons_of_gt x y xs hc]
      cases i with
      | zero => exact lt_of_not_ge hc
      | succ j =>
        rw [getD_cons_succ]
        exact getD_lt_maxVal_of_lt_argmax (y :: xs) j (by omega)

/-- If position `p` holds a strict maximum, `argmax` returns `p`. -/
lemma argmax_eq_of_strict (l : List ℤ) (p : ℕ) (hp : p < l.length)
    (hstrict : ∀ j, j < l.length → j ≠ p → l.getD j 0 < l.getD p 0) :
    argmax l = p := by
  have hne : l ≠ [] := by
    intro h
    subst h
    simp at hp
  have ha := argmax_lt_length l hne
  by_contra hneq
  have h1 := hstrict (argmax l) ha hneq
  have h2 := getD_le_maxVal l p hp
  exact absurd (lt_of_lt_of_le h1 h2) (lt_irrefl _)

/-- If position `p` attains the maximum value, `argmax` (the first
maximising index) is at most `p`. -/
lemma argmax_le_of_maxVal_at (l : List ℤ) (p : ℕ)
    (h : l.getD p 0 = maxVal l) : argmax l ≤ p := by
  by_contra hgt
  have := getD_lt_maxVal_of_lt_argmax l p (by omega)
  rw [h] at this
  exact absurd this (lt_irrefl _)

lemma sig_natCast (w : List ℤ) (j : ℕ) : sig w (j : ℤ) = w.getD j 0 := by
  unfold sig
  split_ifs with h
  · rw [Int.toNat_natCast]
  · have hj : w.length ≤ j := by omega
    exact (List.getD_eq_default _ _ hj).symm

lemma sig_eq_zero_of_out (w : List ℤ) (z : ℤ)
    (h : z < 0 ∨ (w.length : ℤ) ≤ z) : sig w z = 0 := by
  unfold sig
  rw [if_neg (by omega)]

lemma sum_Ico_int_shift (f : ℤ → ℤ) (a b c : ℤ) :
    ∑ i ∈ Finset.Ico (a + c) (b + c), f i = ∑ j ∈ Finset.Ico a b, f (j + c) := by
  rw [← Finset.map_add_right_Ico a b c, Finset.sum_map]
  rfl

lemma sum_range_intCast (f : ℤ → ℤ) (N : ℕ) :
    ∑ z ∈ Finset.Ico (0 : ℤ) (N : ℤ), f z = ∑ j ∈ Finset.range N, f (j : ℤ) := by
  induction N with
  | zero => simp
  | succ n ih =>
    have hins : Finset.Ico (0 : ℤ) ((n + 1 : ℕ) : ℤ)
        = insert (n : ℤ) (Finset.Ico (0 : ℤ) (n : ℤ)) := by
      ext z
      simp only [Finset.mem_Ico, Finset.mem_insert]
      omega
    rw [hins, Finset.sum_insert (by simp), ih, Finset.sum_range_succ]
    ring

lemma sum_sig_mul_eq_autocorr (w : List ℤ) (d : ℤ) (I : Finset ℤ)
    (hI : Finset.Ico (0 : ℤ) (w.length : ℤ) ⊆ I) :
    ∑ i ∈ I, sig w i * sig w (i - d) = autocorr w d := by
  unfold autocorr
  refine (Finset.sum_subset hI ?_).symm
  intro i _ hni
  simp only [Finset.mem_Ico] at hni
  rw [sig_eq_zero_of_out w i (by omega), zero_mul]

lemma sum_sig_sq_eq_selfEnergy (w : List ℤ) (I : Finset ℤ)
    (hI : Finset.Ico (0 : ℤ) (w.length : ℤ) ⊆ I) :
    ∑ i ∈ I, sig w i ^ 2 = selfEnergy w := by
  unfold selfEnergy
  refine (Finset.sum_subset hI ?_).symm
  intro i _ hni
  simp only [Finset.mem_Ico] at hni
  rw [sig_eq_zero_of_out w i (by omega)]
  ring

lemma sum_sig_shift_sq (w : List ℤ) (d : ℤ) (I : Finset ℤ)
    (hI : Finset.Ico d ((w.length : ℤ) + d) ⊆ I) :
    ∑ i ∈ I, sig w (i - d) ^ 2 = selfEnergy w := by
  have h1 : ∑ i ∈ I, sig w (i - d) ^ 2
      = ∑ i ∈ Finset.Ico d ((w.length : ℤ) + d), sig w (i - d) ^ 2 := by
    refine (Finset.sum_subset hI ?_).symm
    intro i _ hni
    simp only [Finset.mem_Ico] at hni
    rw [sig_eq_zero_of_out w (i - d) (by omega)]
    ring
  rw [h1, show Finset.Ico d ((w.length : ℤ) + d)
      = Finset.Ico ((0 : ℤ) + d) ((w.length : ℤ) + d) by rw [zero_add],
    sum_Ico_int_shift]
  unfold selfEnergy
  apply Finset.sum_congr rfl
  intro j _
  rw [add_sub_cancel_right]

lemma Ico_zero_subset_corrWindow (w : List ℤ) (d : ℤ) :
    Finset.Ico (0 : ℤ) (w.length : ℤ) ⊆ corrWindow w d :=
  Finset.Ico_subset_Ico (min_le_left _ _) (le_max_left _ _)

lemma Ico_shift_subset_corrWindow (w : List ℤ) (d : ℤ) :
    Finset.Ico d ((w.length : ℤ) + d) ⊆ corrWindow w d :=
  Finset.Ico_subset_Ico (min_le_right _ _) (le_max_right _ _)

/-- The square-difference identity behind the Cauchy–Schwarz-style bound:
`Σ (w i - w (i-d))² = 2·E - 2·r(d)`. -/
lemma sum_sq_diff (w : List ℤ) (d : ℤ) :
    ∑ i ∈ corrWindow w d, (sig w i - sig w (i - d)) ^ 2
      = 2 * selfEnergy w - 2 * autocorr w d := by
  have hexp : ∀ i ∈ corrWindow w d,
      (sig w i - sig w (i - d)) ^ 2
        = sig w i ^ 2 + sig w (i - d) ^ 2 - 2 * (sig w i * sig w (i - d)) :=
    fun i _ => by ring
  rw [Finset.sum_congr rfl hexp, Finset.sum_sub_distrib, Finset.sum_add_distrib,
    ← Finset.mul_sum,
    sum_sig_sq_eq_selfEnergy w _ (Ico_zero_subset_corrWindow w d),
    sum_sig_mul_eq_autocorr w d _ (Ico_zero_subset_corrWindow w d),
    sum_sig_shift_sq w d _ (Ico_shift_subset_corrWindow w d)]
  ring

/-- The autocorrelation at any lag never exceeds the zero-lag peak. -/
lemma autocorr_le (w : List ℤ) (d : ℤ) : autocorr w d ≤ selfEnergy w := by
  have h := sum_sq_diff w d
  have hnn : 0 ≤ ∑ i ∈ corrWindow w d, (sig w i - sig w (i - d)) ^ 2 :=
    Finset.sum_nonneg fun i _ => sq_nonneg _
  rw [h] at hnn
  linarith

lemma autocorr_zero (w : List ℤ) : autocorr w 0 = selfEnergy w := by
  unfold autocorr selfEnergy
  apply Finset.sum_congr rfl
  intro i _
  rw [sub_zero, sq]

lemma autocorr_neg (w : List ℤ) (d : ℤ) : autocorr w (-d) = autocorr w d := by
  rw [← sum_sig_mul_eq_autocorr w d _ (Ico_zero_subset_corrWindow w d)]
  have h1 : corrWindow w d
      = Finset.Ico ((min 0 d - d) + d) ((max (w.length : ℤ) ((w.length : ℤ) + d) - d) + d) := by
    unfold corrWindow
    congr 1 <;> ring
  rw [h1, sum_Ico_int_shift]
  have h2 : ∀ j ∈ Finset.Ico (min 0 d - d) (max (w.length : ℤ) ((w.length : ℤ) + d) - d),
      sig w (j + d) * sig w (j + d - d) = sig w j * sig w (j - -d) := by
    intro j _
    rw [add_sub_cancel_right, sub_neg_eq_add, mul_comm]
  rw [Finset.sum_congr rfl h2]
  refine (sum_sig_mul_eq_autocorr w (-d) _ (Finset.Ico_subset_Ico ?_ ?_)).symm
  · have := min_le_right (0 : ℤ) d
    omega
  · have := le_max_right (w.length : ℤ) ((w.length : ℤ) + d)
    omega

lemma selfEnergy_nonneg (w : List ℤ) : 0 ≤ selfEnergy w :=
  Finset.sum_nonneg fun _ _ => sq_nonneg _

/-- A signal with a nonzero sample has a strictly smaller autocorrelation
at every positive lag (no finite nonzero signal is shift-periodic). -/
lemma autocorr_lt_of_pos (w : List ℤ) (d : ℤ) (hd : 0 < d)
    (hnz : ∃ x ∈ w, x ≠ 0) : autocorr w d < selfEnergy w := by
  rcases lt_or_eq_of_le (autocorr_le w d) with h | h
  · exact h
  exfalso
  have hsum0 : ∑ i ∈ corrWindow w d, (sig w i - sig w (i - d)) ^ 2 = 0 := by
    rw [sum_sq_diff, ← h]
    ring
  have hterm : ∀ i ∈ corrWindow w d, sig w i = sig w (i - d) := by
    intro i hi
    have h0 := (Finset.sum_eq_zero_iff_of_nonneg
      (fun j _ => sq_nonneg (sig w j - sig w (j - d)))).mp hsum0 i hi
    have h1 : sig w i - sig w (i - d) = 0 := by
      exact pow_eq_zero_iff two_ne_zero |>.mp h0
    linarith [h1]
  have hall : ∀ i : ℤ, sig w i = sig w (i - d) := by
    intro i
    by_cases hi : i ∈ corrWindow w d
    · exact hterm i hi
    · have hni : ¬(min 0 d ≤ i ∧ i < max (w.length : ℤ) ((w.length : ℤ) + d)) := by
        simpa [corrWindow, Finset.mem_Ico] using hi
      have hmin1 : min (0 : ℤ) d ≤ 0 := min_le_left _ _
      have hmin2 : min (0 : ℤ) d ≤ d := min_le_right _ _
      have hmax1 : (w.length : ℤ) ≤ max (w.length : ℤ) ((w.length : ℤ) + d) :=
        le_max_left _ _
      have hmax2 : (w.length : ℤ) + d ≤ max (w.length : ℤ) ((w.length : ℤ) + d) :=
        le_max_right _ _
      have h1 : sig w i = 0 := sig_eq_zero_of_out w i (by omega)
      have h2 : sig w (i - d) = 0 := sig_eq_zero_of_out w (i - d) (by omega)
      rw [h1, h2]
  have hz : ∀ n : ℕ, sig w (n : ℤ) = 0 := by
    intro n
    induction n using Nat.strong_induction_on with
    | _ n ih =>
      rw [hall (n : ℤ)]
      by_cases hneg : (n : ℤ) - d < 0
      · exact sig_eq_zero_of_out w _ (Or.inl hneg)
      · push_neg at hneg
        have hlt : ((n : ℤ) - d).toNat < n := by omega
        have hcast : ((((n : ℤ) - d).toNat : ℕ) : ℤ) = (n : ℤ) - d :=
          Int.toNat_of_nonneg hneg
        rw [← hcast]
        exact ih _ hlt
  obtain ⟨x, hmem, hxne⟩ := hnz
  obtain ⟨j, hj, rfl⟩ := List.getElem_of_mem hmem
  apply hxne
  have hzj := hz j
  rw [sig_natCast, List.getD_eq_getElem _ _ hj] at hzj
  exact hzj

/-- Strict version at every nonzero lag, using symmetry for negative lags. -/
lemma autocorr_lt (w : List ℤ) (d : ℤ) (hd : d ≠ 0)
    (hnz : ∃ x ∈ w, x ≠ 0) : autocorr w d < selfEnergy w := by
  rcases lt_trichotomy d 0 with h | h | h
  · rw [← autocorr_neg]
    exact autocorr_lt_of_pos w (-d) (by omega) hnz
  · exact absurd h hd
  · exact autocorr_lt_of_pos w d h hnz

/-- A positive self-correlation peak forces some nonzero sample. -/
lemma exists_ne_zero_of_selfEnergy_pos (w : List ℤ) (h : 0 < selfEnergy w) :
    ∃ x ∈ w, x ≠ 0 := by
  by_contra hall
  push_neg at hall
  have hE : selfEnergy w = 0 := by
    unfold selfEnergy
    apply Finset.sum_eq_zero
    intro i hi
    simp only [Finset.mem_Ico] at hi
    have hlt : i.toNat < w.length := by omega
    have hsig : sig w i = 0 := by
      unfold sig
      rw [if_pos (by omega), List.getD_eq_getElem _ _ hlt]
      exact hall _ (List.getElem_mem hlt)
    rw [hsig]
    ring
  omega

lemma getD_replicate_zero (k n : ℕ) : (List.replicate k (0 : ℤ)).getD n 0 = 0 := by
  by_cases h : n < k
  · rw [List.getD_eq_getElem _ _ (by simpa using h), List.getElem_replicate]
  · exact List.getD_eq_default _ _ (by simpa using not_lt.mp h)

/-- Front zero-padding is an index shift of the ℤ-indexed signal. -/
lemma sig_pad (k : ℕ) (w : List ℤ) (z : ℤ) :
    sig (List.replicate k 0 ++ w) z = sig w (z - k) := by
  have hlen : ((List.replicate k (0 : ℤ) ++ w).length : ℤ) = (k : ℤ) + w.length := by
    rw [List.length_append, List.length_replicate]
    push_cast
    ring
  unfold sig
  rw [hlen]
  by_cases hA : 0 ≤ z ∧ z < (k : ℤ) + w.length
  · rw [if_pos hA]
    by_cases hB : z < (k : ℤ)
    · rw [if_neg (by omega)]
      have hz : z.toNat < (List.replicate k (0 : ℤ)).length := by
        rw [List.length_replicate]
        omega
      rw [List.getD_append _ _ _ _ hz, getD_replicate_zero]
    · rw [if_pos (by omega)]
      have hz : (List.replicate k (0 : ℤ)).length ≤ z.toNat := by
        rw [List.length_replicate]
        omega
      rw [List.getD_append_right _ _ _ _ hz, List.length_replicate]
      congr 1
      omega
  · rw [if_neg hA, if_neg (by omega)]

/-- Reversal mirrors the ℤ-indexed signal around `(length - 1) / 2`. -/
lemma sig_reverse (w : List ℤ) (z : ℤ) :
    sig w.reverse z = sig w ((w.length : ℤ) - 1 - z) := by
  unfold sig
  rw [List.length_reverse]
  by_cases h : 0 ≤ z ∧ z < (w.length : ℤ)
  · rw [if_pos h, if_pos (by omega)]
    have hz : z.toNat < w.reverse.length := by
      rw [List.length_reverse]
      omega
    have hz2 : w.length - 1 - z.toNat < w.length := by omega
    rw [List.getD_eq_getElem _ _ hz, List.getElem_reverse,
      ← List.getD_eq_getElem w 0 (by omega : w.length - 1 - z.toNat < w.length)]
    congr 1
    omega
  · rw [if_neg h, if_neg (by omega)]

/-- Each entry of the code's full correlation of a zero-padded copy
against the reversed probe is an autocorrelation value of the probe. -/
lemma conv_coeff_autocorr (w : List ℤ) (k t : ℕ) :
    conv_coeff (List.replicate k 0 ++ w) w.reverse t
      = autocorr w ((t : ℤ) - ((k : ℤ) + (w.length : ℤ) - 1)) := by
  have step1 : conv_coeff (List.replicate k 0 ++ w) w.reverse t
      = ∑ j ∈ Finset.range (t + 1),
          sig (List.replicate k 0 ++ w) (j : ℤ) * sig w.reverse ((t : ℤ) - (j : ℤ)) := by
    unfold conv_coeff
    apply Finset.sum_congr rfl
    intro j hj
    have hjt : j ≤ t := by
      have := Finset.mem_range.mp hj
      omega
    have hsub : ((t - j : ℕ) : ℤ) = (t : ℤ) - (j : ℤ) := by omega
    rw [sig_natCast, ← hsub, sig_natCast]
  have step2 : ∑ j ∈ Finset.range (t + 1),
        sig (List.replicate k 0 ++ w) (j : ℤ) * sig w.reverse ((t : ℤ) - (j : ℤ))
      = ∑ j ∈ Finset.range (max (t + 1) (k + w.length)),
          sig (List.replicate k 0 ++ w) (j : ℤ) * sig w.reverse ((t : ℤ) - (j : ℤ)) := by
    apply Finset.sum_subset (Finset.range_subset.mpr (le_max_left _ _))
    intro j _ hjt
    have hj : t + 1 ≤ j := by
      by_contra hc
      exact hjt (Finset.mem_range.mpr (by omega))
    rw [sig_eq_zero_of_out w.reverse _ (Or.inl (by omega)), mul_zero]
  have step3 : ∑ j ∈ Finset.range (max (t + 1) (k + w.length)),
        sig (List.replicate k 0 ++ w) (j : ℤ) * sig w.reverse ((t : ℤ) - (j : ℤ))
      = ∑ z ∈ Finset.Ico (0 : ℤ) ((max (t + 1) (k + w.length) : ℕ) : ℤ),
          sig (List.replicate k 0 ++ w) z * sig w.reverse ((t : ℤ) - z) :=
    (sum_range_intCast
      (fun z => sig (List.replicate k 0 ++ w) z * sig w.reverse ((t : ℤ) - z)) _).symm
  have step4 : ∀ z ∈ Finset.Ico (0 : ℤ) ((max (t + 1) (k + w.length) : ℕ) : ℤ),
      sig (List.replicate k 0 ++ w) z * sig w.reverse ((t : ℤ) - z)
        = sig w (z - k) * sig w ((z - k) - ((t : ℤ) - ((k : ℤ) + (w.length : ℤ) - 1))) := by
    intro z _
    rw [sig_pad, sig_reverse]
    have harg : (w.length : ℤ) - 1 - ((t : ℤ) - z)
        = (z - k) - ((t : ℤ) - ((k : ℤ) + (w.length : ℤ) - 1)) := by ring
    rw [harg]
  have step5 : ∑ z ∈ Finset.Ico (0 : ℤ) ((max (t + 1) (k + w.length) : ℕ) : ℤ),
        sig w (z - k) * sig w ((z - k) - ((t : ℤ) - ((k : ℤ) + (w.length : ℤ) - 1)))
      = ∑ i ∈ Finset.Ico (-(k : ℤ)) (((max (t + 1) (k + w.length) : ℕ) : ℤ) - k),
          sig w i * sig w (i - ((t : ℤ) - ((k : ℤ) + (w.length : ℤ) - 1))) := by
    rw [show Finset.Ico (0 : ℤ) ((max (t + 1) (k + w.length) : ℕ) : ℤ)
        = Finset.Ico ((-(k : ℤ)) + k) ((((max (t + 1) (k + w.length) : ℕ) : ℤ) - k) + k) by
      congr 1 <;> ring, sum_Ico_int_shift]
    apply Finset.sum_congr rfl
    intro i _
    rw [add_sub_cancel_right]
  rw [step1, step2, step3, Finset.sum_congr rfl step4, step5]
  apply sum_sig_mul_eq_autocorr
  apply Finset.Ico_subset_Ico
  · omega
  · have := le_max_right (t + 1) (k + w.length)
    omega

lemma fftconvolve_length (a b : List ℤ) (ha : a ≠ []) (hb : b ≠ []) :
    (fftconvolve a b).length = a.length + b.length - 1 := by
  unfold fftconvolve
  rw [if_neg (by simp [ha, hb]), List.length_map, List.length_range]

lemma fftconvolve_getD (a b : List ℤ) (ha : a ≠ []) (hb : b ≠ []) (t : ℕ)
    (ht : t < a.length + b.length - 1) :
    (fftconvolve a b).getD t 0 = conv_coeff a b t := by
  unfold fftconvolve
  rw [if_neg (by simp [ha, hb])]
  rw [List.getD_eq_getElem _ _ (by rw [List.length_map, List.length_range]; exact ht)]
  rw [List.getElem_map, List.getElem_range]

/-- For a reference that is the probe delayed by `k` zero samples, the
argmax of the code's full FFT correlation sits at index
`k + len(probe) - 1` (as long as the probe is not identically zero). -/
lemma argmax_corr_delay (w : List ℤ) (k : ℕ) (hnz : ∃ x ∈ w, x ≠ 0) :
    argmax (fftconvolve (List.replicate k 0 ++ w) w.reverse) = k + w.length - 1 := by
  have hwne : w ≠ [] := by
    rintro rfl
    simp at hnz
  have hm : 1 ≤ w.length := List.length_pos.mpr hwne
  have hAne : List.replicate k 0 ++ w ≠ [] := by simp [hwne]
  have hrevne : w.reverse ≠ [] := by simp [hwne]
  have hlenA : (List.replicate k 0 ++ w).length = k + w.length := by simp
  have hlen : (fftconvolve (List.replicate k 0 ++ w) w.reverse).length
      = k + w.length + w.length - 1 := by
    rw [fftconvolve_length _ _ hAne hrevne, hlenA, List.length_reverse]
  apply argmax_eq_of_strict
  · rw [hlen]
    omega
  · intro j hj hne
    rw [hlen] at hj
    rw [fftconvolve_getD _ _ hAne hrevne j
        (by rw [hlenA, List.length_reverse]; omega),
      fftconvolve_getD _ _ hAne hrevne _
        (by rw [hlenA, List.length_reverse]; omega),
      conv_coeff_autocorr, conv_coeff_autocorr]
    have hp : ((k + w.length - 1 : ℕ) : ℤ) - ((k : ℤ) + (w.length : ℤ) - 1) = 0 := by
      omega
    rw [hp, autocorr_zero]
    exact autocorr_lt w _ (by omega) hnz

/-- A fully successful run, evaluated symbolically. -/
lemma process_video_eq_of_ok (ff ext tr : Bool) (durR : Option ℚ)
    (vs as : List ℤ) (br : Option ℕ) (iv ia ov : String) (off dur : ℚ)
    (hff : ff = true) (hdur : durR = some dur) (hext : ext = true)
    (hfa : find_audio_offset vs as = .ok off) (htr : tr = true) :
    process_video ⟨ff, durR, ext, vs, as, br, tr⟩ iv ia ov
      = ⟨.completed, stepOrder, false, some (build_command off dur br iv ia ov)⟩ := by
  subst hff hdur hext htr
  simp [process_video, hfa, stepOrder]

/-- A run in which only the final transcode subprocess fails. -/
lemma process_video_eq_of_transcode_fail (ff ext tr : Bool) (durR : Option ℚ)
    (vs as : List ℤ) (br : Option ℕ) (iv ia ov : String) (off dur : ℚ)
    (hff : ff = true) (hdur : durR = some dur) (hext : ext = true)
    (hfa : find_audio_offset vs as = .ok off) (htr : tr = false) :
    process_video ⟨ff, durR, ext, vs, as, br, tr⟩ iv ia ov
      = ⟨.crashTranscode,
         [.checkTool, .probeDuration, .extractAudio, .estimateOffset,
          .probeBitrate, .buildRequest, .transcode], true,
         some (build_command off dur br iv ia ov)⟩ := by
  subst hff hdur hext htr
  simp [process_video, hfa]

/-- A run aborted by the low-confidence `sys.exit(1)` in the estimator. -/
lemma process_video_eq_of_noAlignment (ff ext tr : Bool) (durR : Option ℚ)
    (vs as : List ℤ) (br : Option ℕ) (iv ia ov : String) (dur : ℚ)
    (hff : ff = true) (hdur : durR = some dur) (hext : ext = true)
    (hfa : find_audio_offset vs as = .errNoAlignment) :
    process_video ⟨ff, durR, ext, vs, as, br, tr⟩ iv ia ov
      = ⟨.errNoAlignment,
         [.checkTool, .probeDuration, .extractAudio, .estimateOffset], true, none⟩ := by
  subst hff hdur hext
  simp [process_video, hfa]

/-- A successful estimator run returns exactly the clamped value of
line 51, `max(best_offset / sr, 0)`. -/
lemma find_ok_offset_eq (v w : List ℤ) (r : ℚ)
    (h : find_audio_offset v w = .ok r) :
    r = max ((bestOffsetOf v w : ℚ) / (sr : ℚ)) 0 := by
  unfold find_audio_offset at h
  split_ifs at h with h1 h2
  exact (EstResult.ok.inj h).symm

/-- For a non-empty signal correlated with itself, the maximum of the
code's correlation is the self-correlation peak, every entry is bounded
by that peak, and the argmax is at most `length - 1`. -/
lemma self_corr_props (u : List ℤ) (hune : u ≠ []) :
    maxVal (fftconvolve u u.reverse) = selfEnergy u ∧
    (∀ t : ℕ, (fftconvolve u u.reverse).getD t 0 ≤ selfEnergy u) ∧
    argmax (fftconvolve u u.reverse) ≤ u.length - 1 := by
  have hm : 1 ≤ u.length := List.length_pos.mpr hune
  have hrevne : u.reverse ≠ [] := by simp [hune]
  have hlen : (fftconvolve u u.reverse).length = u.length + u.length - 1 := by
    rw [fftconvolve_length _ _ hune hrevne, List.length_reverse]
  have hentry : ∀ t : ℕ, t < u.length + u.length - 1 →
      (fftconvolve u u.reverse).getD t 0
        = autocorr u ((t : ℤ) - ((u.length : ℤ) - 1)) := by
    intro t ht
    rw [fftconvolve_getD u u.reverse hune hrevne t
      (by rw [List.length_reverse]; omega)]
    have h0 := conv_coeff_autocorr u 0 t
    rw [show List.replicate 0 (0 : ℤ) ++ u = u from rfl] at h0
    rw [h0]
    congr 1
    push_cast
    ring
  have hpeak : (fftconvolve u u.reverse).getD (u.length - 1) 0 = selfEnergy u := by
    rw [hentry (u.length - 1) (by omega),
      show ((u.length - 1 : ℕ) : ℤ) - ((u.length : ℤ) - 1) = 0 by omega,
      autocorr_zero]
  have hboundAll : ∀ t : ℕ, (fftconvolve u u.reverse).getD t 0 ≤ selfEnergy u := by
    intro t
    by_cases ht : t < u.length + u.length - 1
    · rw [hentry t ht]
      exact autocorr_le u _
    · rw [List.getD_eq_default _ _ (by rw [hlen]; omega)]
      exact selfEnergy_nonneg u
  have hmaxval : maxVal (fftconvolve u u.reverse) = selfEnergy u := by
    apply le_antisymm
    · exact hboundAll _
    · rw [← hpeak]
      exact getD_le_maxVal _ _ (by rw [hlen]; omega)
  exact ⟨hmaxval, hboundAll,
    argmax_le_of_maxVal_at _ _ (hpeak.trans hmaxval.symm)⟩

/-- Claim C1 (counterexample): for the probe `[1]` and a reference equal
to that probe delayed by `k = 2` zero samples, the sample lag computed at
line 39 of cut.py (`argmax(correlation) - len(probe)`) is `1`, not `2`:
the claim that the computed lag equals `k` fails. -/
theorem C1_counterexample :
    bestOffsetOf (List.replicate 2 0 ++ [1]) [1] = 1 ∧ (1 : ℤ) ≠ 2 := by
  constructor
  · decide
  · decide

/-- Claim C1 (amended): for every probe within the analysis window that
is not identically zero, and every delay `k` up to the window size, the
lag computed at line 39 (`argmax - len(probe)`) equals `k - 1` exactly;
equivalently the standard full-correlation convention
`argmax - len(probe) + 1` recovers `k`. -/
theorem C1_theorem (w : List ℤ) (k : ℕ) (hw : w.length ≤ windowSamples)
    (hk : k ≤ windowSamples) (hnz : ∃ x ∈ w, x ≠ 0) :
    bestOffsetOf (List.replicate k 0 ++ w) w = (k : ℤ) - 1 := by
  have hm : 1 ≤ w.length := by
    rcases hnz with ⟨x, hx, -⟩
    exact List.length_pos.mpr (List.ne_nil_of_mem hx)
  have htr : truncProbe w = w := by
    unfold truncProbe
    exact List.take_of_length_le hw
  unfold bestOffsetOf correlationOf
  rw [htr, argmax_corr_delay w k hnz]
  omega

/-- Claim C1 (witness): probe `[2]` delayed by `k = 3` samples yields the
computed lag `3 - 1 = 2`. -/
theorem C1_witness :
    bestOffsetOf (List.replicate 3 0 ++ [2]) [2] = (3 : ℤ) - 1 :=
  C1_theorem [2] 3 (by decide) (by decide) (by decide)

/-- Claim C2 (counterexample): for the non-empty signal `[1]`, running the
estimator on two identical copies does not yield an offset at all — the
self-correlation peak `1` is below the acceptance threshold, so the code
exits via `sys.exit(1)` instead of returning 0. -/
theorem C2_counterexample :
    find_audio_offset (truncProbe [1]) [1] = .errNoAlignment := by
  decide

/-- Claim C2 (amended): for every non-empty signal, with reference equal
to the window-truncated probe, the confidence equals the signal's
self-correlation peak, that peak bounds every correlation value, and
whenever the estimator returns at all (the peak meets the threshold) the
returned offset is exactly 0. -/
theorem C2_theorem (w : List ℤ) (hw : w ≠ []) :
    confidenceOf (truncProbe w) w = selfEnergy (truncProbe w) ∧
    (∀ t : ℕ, (correlationOf (truncProbe w) w).getD t 0 ≤ selfEnergy (truncProbe w)) ∧
    (∀ r : ℚ, find_audio_offset (truncProbe w) w = .ok r → r = 0) := by
  have hlt : 0 < (truncProbe w).length := by
    unfold truncProbe
    rw [List.length_take]
    exact lt_min (by decide) (List.length_pos.mpr hw)
  have hune : truncProbe w ≠ [] := List.length_pos.mp hlt
  have hprops := self_corr_props (truncProbe w) hune
  have hcorr : correlationOf (truncProbe w) w
      = fftconvolve (truncProbe w) (truncProbe w).reverse := rfl
  refine ⟨?_, ?_, ?_⟩
  · unfold confidenceOf
    rw [hcorr]
    exact hprops.1
  · intro t
    rw [hcorr]
    exact hprops.2.1 t
  · intro r hr
    unfold find_audio_offset at hr
    split_ifs at hr with h1 h2
    have hinj := EstResult.ok.inj hr
    have hbo : bestOffsetOf (truncProbe w) w ≤ 0 := by
      unfold bestOffsetOf
      rw [hcorr]
      have := hprops.2.2
      omega
    rw [← hinj, clamp_eq_zero_of_nonpos _ hbo]

/-- Claim C2 (witness): at the concrete signal `[40]` the theorem applies,
the estimator succeeds with offset 0, and the confidence equals the
self-correlation peak. -/
theorem C2_witness :
    confidenceOf (truncProbe [40]) [40] = selfEnergy (truncProbe [40]) ∧
    (0 : ℚ) = 0 := by
  have h := C2_theorem [40] (by decide)
  refine ⟨h.1, h.2.2 0 ?_⟩
  rw [show truncProbe [40] = [40] from by decide]
  exact est40

/-- Claim C3 (counterexample): on inputs with confidence exactly 1000 the
estimation succeeds and the result is used downstream even though the
confidence does not exceed the threshold — the code tests `< 1000`, not
`≤ 1000`. -/
theorem C3_counterexample :
    confidenceOf [1000] [1] = 1000 ∧ ¬((1000 : ℤ) < 1000) ∧
    find_audio_offset [1000] [1] = .ok 0 := by
  refine ⟨by decide, by decide, ?_⟩
  unfold find_audio_offset
  rw [if_neg (by decide), if_neg (by decide),
    show bestOffsetOf [1000] [1] = -1 from by decide,
    clamp_eq_zero_of_nonpos (-1) (by decide)]

/-- Claim C3 (amended): whenever the confidence (maximum correlation) is
below 1000 — i.e. fails to be at least 1000 — the estimator exits fatally
with the no-alignment error, `process_video` never completes, the
transcode step is never started, and no transcode request is built. -/
theorem C3_theorem (env : Env) (iv ia ov : String)
    (hne : correlationOf env.videoSig env.audioSig ≠ [])
    (hlow : confidenceOf env.videoSig env.audioSig < 1000) :
    find_audio_offset env.videoSig env.audioSig = .errNoAlignment ∧
    (process_video env iv ia ov).status ≠ .completed ∧
    Step.transcode ∉ (process_video env iv ia ov).trace ∧
    (process_video env iv ia ov).builtCommand = none := by
  have hfa : find_audio_offset env.videoSig env.audioSig = .errNoAlignment := by
    unfold find_audio_offset
    rw [if_neg hne, if_pos hlow]
  refine ⟨hfa, ?_⟩
  rcases env with ⟨ff, durR, ext, vs, as, br, tr⟩
  simp only at hfa
  cases ff
  · refine ⟨?_, ?_, ?_⟩ <;> simp [process_video]
  · cases durR
    · refine ⟨?_, ?_, ?_⟩ <;> simp [process_video]
    · cases ext
      · refine ⟨?_, ?_, ?_⟩ <;> simp [process_video]
      · refine ⟨?_, ?_, ?_⟩ <;> simp [process_video, hfa]

/-- Claim C3 (witness): a concrete low-confidence environment in which
the estimator exits with the no-alignment error and the pipeline never
builds or runs a transcode. -/
theorem C3_witness :
    find_audio_offset [1] [1] = .errNoAlignment ∧
    (process_video envLowConfidence iv0 ia0 ov0).status ≠ .completed ∧
    Step.transcode ∉ (process_video envLowConfidence iv0 ia0 ov0).trace ∧
    (process_video envLowConfidence iv0 ia0 ov0).builtCommand = none :=
  C3_theorem envLowConfidence iv0 ia0 ov0 (by decide) (by decide)

/-- Claim C4: whenever `find_audio_offset` succeeds, the returned offset
is non-negative, it equals the clamped `max(lag / sr, 0)` of line 51, and
a negative raw offset is clamped to exactly zero. -/
theorem C4_theorem (v w : List ℤ) (r : ℚ)
    (h : find_audio_offset v w = .ok r) :
    0 ≤ r ∧ r = max ((bestOffsetOf v w : ℚ) / (sr : ℚ)) 0 ∧
    ((bestOffsetOf v w : ℚ) / (sr : ℚ) < 0 → r = 0) := by
  have hr := find_ok_offset_eq v w r h
  refine ⟨?_, hr, ?_⟩
  · rw [hr]
    exact le_max_right _ _
  · intro hneg
    rw [hr]
    exact max_eq_right (le_of_lt hneg)

/-- Claim C4 (witness): the estimator succeeds on `[40], [40]` and the
returned offset 0 satisfies the non-negativity and clamping laws. -/
theorem C4_witness :
    (0 : ℚ) ≤ 0 ∧
    (0 : ℚ) = max ((bestOffsetOf [40] [40] : ℚ) / (sr : ℚ)) 0 ∧
    ((bestOffsetOf [40] [40] : ℚ) / (sr : ℚ) < 0 → (0 : ℚ) = 0) := by
  have h := C4_theorem [40] [40] 0 est40
  exact ⟨le_refl 0, h.2.1, h.2.2⟩

/-- Claim C5: the probe is truncated to at most `sr * 60 = 882000`
samples before correlation, and a probe shorter than the window is used
unchanged. -/
theorem C5_theorem (w : List ℤ) :
    (truncProbe w).length ≤ sr * 60 ∧
    (w.length < sr * 60 → truncProbe w = w) := by
  constructor
  · unfold truncProbe windowSamples
    rw [List.length_take]
    exact min_le_left _ _
  · intro h
    unfold truncProbe windowSamples
    exact List.take_of_length_le (le_of_lt h)

/-- Claim C5 (witness): the two-sample probe `[1, 2]` is within the
window and is used unchanged. -/
theorem C5_witness :
    (truncProbe [1, 2]).length ≤ sr * 60 ∧ truncProbe [1, 2] = [1, 2] :=
  ⟨(C5_theorem [1, 2]).1, (C5_theorem [1, 2]).2 (by decide)⟩

/-- Claim C6 (counterexample): in a run that gets past extraction but
whose final transcode subprocess fails, the uncaught
`CalledProcessError` aborts `process_video` before line 130, so the
temporary intermediate audio file is NOT removed. -/
theorem C6_counterexample :
    (process_video envTranscodeFails iv0 ia0 ov0).status = .crashTranscode ∧
    Step.extractAudio ∈ (process_video envTranscodeFails iv0 ia0 ov0).trace ∧
    (process_video envTranscodeFails iv0 ia0 ov0).tempFileExists = true := by
  have h := process_video_eq_of_transcode_fail true true false (some 10) [40] [40]
    (some 5000000) iv0 ia0 ov0 0 10 rfl rfl rfl est40 rfl
  unfold envTranscodeFails
  rw [h]
  exact ⟨rfl, by decide, rfl⟩

/-- Claim C6 (amended): the temporary intermediate audio file is removed
exactly on runs that complete the final transcode successfully (the
`unlink(missing_ok=True)` at line 130 is only reached then; there is no
`try/finally`, so any failure after extraction leaves the file behind). -/
theorem C6_theorem (env : Env) (iv ia ov : String)
    (h : (process_video env iv ia ov).status = .completed) :
    (process_video env iv ia ov).tempFileExists = false := by
  rcases env with ⟨ff, durR, ext, vs, as, br, tr⟩
  cases ff
  · simp [process_video] at h
  · cases durR
    · simp [process_video] at h
    · cases ext
      · simp [process_video] at h
      · rcases hfa : find_audio_offset vs as with _ | _ | off
        · simp [process_video, hfa] at h
        · simp [process_video, hfa] at h
        · cases tr
          · simp [process_video, hfa] at h
          · simp [process_video, hfa]

/-- Claim C6 (witness): a fully successful run does remove the temp file. -/
theorem C6_witness :
    (process_video envAllOk iv0 ia0 ov0).status = .completed ∧
    (process_video envAllOk iv0 ia0 ov0).tempFileExists = false := by
  have hs : (process_video envAllOk iv0 ia0 ov0).status = .completed := by
    unfold envAllOk
    rw [process_video_eq_of_ok true true true (some 10) [40] [40] (some 5000000)
      iv0 ia0 ov0 0 10 rfl rfl rfl est40 rfl]
  exact ⟨hs, C6_theorem envAllOk iv0 ia0 ov0 hs⟩

/-- Claim C7 (counterexample): in a fully successful run the actual step
order probes the audio duration BEFORE extracting the comparable audio
(line 92 runs `get_audio_duration` before line 95 runs `extract_audio`),
contradicting the claimed order Extract → Estimate → ProbeMetadata. -/
theorem C7_counterexample :
    (process_video envAllOk iv0 ia0 ov0).trace = stepOrder ∧
    List.indexOf Step.probeDuration stepOrder
      < List.indexOf Step.extractAudio stepOrder := by
  constructor
  · unfold envAllOk
    rw [process_video_eq_of_ok true true true (some 10) [40] [40] (some 5000000)
      iv0 ia0 ov0 0 10 rfl rfl rfl est40 rfl]
  · decide

/-- Claim C7 (amended): every run of `process_video` performs a prefix of
the fixed sequence checkTool → probeDuration → extractAudio →
estimateOffset → probeBitrate → buildRequest → transcode → cleanup, with
each step starting only after all earlier steps succeeded. -/
theorem C7_theorem (env : Env) (iv ia ov : String) :
    ∃ rest : List Step, (process_video env iv ia ov).trace ++ rest = stepOrder := by
  rcases env with ⟨ff, durR, ext, vs, as, br, tr⟩
  cases ff
  · exact ⟨[.probeDuration, .extractAudio, .estimateOffset, .probeBitrate,
      .buildRequest, .transcode, .cleanup], by simp [process_video, stepOrder]⟩
  · cases durR
    · exact ⟨[.extractAudio, .estimateOffset, .probeBitrate, .buildRequest,
        .transcode, .cleanup], by simp [process_video, stepOrder]⟩
    · cases ext
      · exact ⟨[.estimateOffset, .probeBitrate, .buildRequest, .transcode,
          .cleanup], by simp [process_video, stepOrder]⟩
      · rcases hfa : find_audio_offset vs as with _ | _ | off
        · exact ⟨[.probeBitrate, .buildRequest, .transcode, .cleanup],
            by simp [process_video, hfa, stepOrder]⟩
        · exact ⟨[.probeBitrate, .buildRequest, .transcode, .cleanup],
            by simp [process_video, hfa, stepOrder]⟩
        · cases tr
          · exact ⟨[.cleanup], by simp [process_video, hfa, stepOrder]⟩
          · exact ⟨[], by simp [process_video, hfa, stepOrder]⟩

/-- Claim C8: when the bitrate probe returns nothing, the pipeline is
indeed non-fatal and completes, but the built transcode request does NOT
omit the bitrate parameter: line 117 interpolates `str(None)`, so the
command contains the literal argument pair `-b:v None`, which is what the
external transcoder receives. -/
theorem C8_theorem :
    (process_video envNoBitrate iv0 ia0 ov0).status = .completed ∧
    (process_video envNoBitrate iv0 ia0 ov0).builtCommand
      = some (build_command 0 10 none iv0 ia0 ov0) ∧
    build_command 0 10 none iv0 ia0 ov0
      = ["ffmpeg", "-y", "-ss", toString (0 : ℚ), "-i", iv0, "-i", ia0,
         "-map", "0:v:0", "-map", "1:a:0", "-c:v", "libx265", "-c:a", "aac",
         "-b:v", "None", "-b:a", "128k", "-t", toString (10 : ℚ), "-vf",
         fade_filter 10, ov0] ∧
    "None" ∈ build_command 0 10 none iv0 ia0 ov0 := by
  have h := process_video_eq_of_ok true true true (some 10) [40] [40] none
    iv0 ia0 ov0 0 10 rfl rfl rfl est40 rfl
  refine ⟨?_, ?_, rfl, ?_⟩
  · unfold envNoBitrate
    rw [h]
  · unfold envNoBitrate
    rw [h]
  · simp [build_command, pyStrOptNat]

/-- Claim C9: a zero-length signal reaches the correlation with no input
validation; scipy returns an empty correlation array and `np.argmax`
raises an uncontrolled `ValueError` (modelled by `crashValueError`)
instead of a controlled input-validation failure. -/
theorem C9_theorem :
    find_audio_offset [] [] = .crashValueError ∧
    find_audio_offset [] [40] = .crashValueError ∧
    find_audio_offset [40] [] = .crashValueError ∧
    correlationOf [40] [] = [] := by
  refine ⟨by decide, by decide, by decide, by decide⟩

/-- Claim C10: on any pair of non-empty signals where estimation
succeeds, the returned offset is strictly below the reference signal's
duration in seconds, the computed lag is at most `len(reference) - 2`,
and the argmax index is at most `len(reference) + len(probe) - 2`. -/
theorem C10_theorem (v w : List ℤ) (r : ℚ) (hv : v ≠ []) (hw : w ≠ [])
    (h : find_audio_offset v w = .ok r) :
    r < (v.length : ℚ) / (sr : ℚ) ∧
    bestOffsetOf v w ≤ (v.length : ℤ) - 2 ∧
    argmax (correlationOf v w) ≤ v.length + (truncProbe w).length - 2 := by
  have hn : 1 ≤ v.length := List.length_pos.mpr hv
  have hmlt : 0 < (truncProbe w).length := by
    unfold truncProbe
    rw [List.length_take]
    exact lt_min (by decide) (List.length_pos.mpr hw)
  have hwt : truncProbe w ≠ [] := List.length_pos.mp hmlt
  have hrevne : (truncProbe w).reverse ≠ [] := by simp [hwt]
  have hcorrlen : (correlationOf v w).length = v.length + (truncProbe w).length - 1 := by
    unfold correlationOf
    rw [fftconvolve_length _ _ hv hrevne, List.length_reverse]
  have hcorrne : correlationOf v w ≠ [] := by
    intro hnil
    rw [hnil] at hcorrlen
    simp only [List.length_nil] at hcorrlen
    omega
  have hargmax : argmax (correlationOf v w) < v.length + (truncProbe w).length - 1 := by
    have h1 := argmax_lt_length _ hcorrne
    rw [hcorrlen] at h1
    exact h1
  have hbo : bestOffsetOf v w ≤ (v.length : ℤ) - 2 := by
    unfold bestOffsetOf
    omega
  refine ⟨?_, hbo, by omega⟩
  have hr : r = max ((bestOffsetOf v w : ℚ) / (sr : ℚ)) 0 := find_ok_offset_eq v w r h
  have hsr : (0 : ℚ) < (sr : ℚ) := by
    have : (0 : ℕ) < sr := by decide
    exact_mod_cast this
  have hfrac : (bestOffsetOf v w : ℚ) / (sr : ℚ) < (v.length : ℚ) / (sr : ℚ) := by
    apply (div_lt_div_iff_of_pos_right hsr).mpr
    have hlt : bestOffsetOf v w < (v.length : ℤ) := by omega
    exact_mod_cast hlt
  have hpos : (0 : ℚ) < (v.length : ℚ) / (sr : ℚ) := by
    apply div_pos _ hsr
    exact_mod_cast hn
  rw [hr]
  exact max_lt hfrac hpos

/-- Claim C10 (witness): a concrete successful estimation whose returned
offset 0 is below the one-sample reference duration. -/
theorem C10_witness :
    (0 : ℚ) < (([40] : List ℤ).length : ℚ) / (sr : ℚ) ∧
    bestOffsetOf [40] [40] ≤ (([40] : List ℤ).length : ℤ) - 2 ∧
    argmax (correlationOf [40] [40]) ≤ ([40] : List ℤ).length + (truncProbe [40]).length - 2 :=
  C10_theorem [40] [40] 0 (by decide) (by decide) est40

end Cut
